import Mathlib

/-!
# Mass-spring-damper model (`src/models/mass_spring_damper.hh`)

A shallow embedding of the model file: the affine state map `A`, the control
polyhedron `B` (with its two function-local statics made an explicit state),
and the interval correction terms `Phi` and `Psi`.

The polyhedron operations the model calls (`affine_image`, `add_generator`,
`point`, linear expressions over `Variable`) are those of the Parma Polyhedra
Library; they are embedded on generator systems, following the library's
documented behaviour, and given a meaning as sets of rational points.
-/

namespace MassSpringDamper

/-! ## Machine integers and failures -/

/-- Ways in which an operation used by the model can fail: signed 64-bit
overflow of a product or difference, and the two exceptions thrown by the
polyhedron library. -/
inductive Failure where
  | overflow
  | invalid_argument
  | dimension_incompatible
  deriving DecidableEq, Repr

/-- Smallest value of `int64_t`. -/
def INT64_MIN : ℤ := -9223372036854775808

/-- Largest value of `int64_t`. -/
def INT64_MAX : ℤ := 9223372036854775807

/-- The value of `INT16_MAX`. -/
def INT16_MAX : ℤ := 32767

/-- The integer `n` is representable as an `int64_t`. -/
def in_int64 (n : ℤ) : Prop := INT64_MIN ≤ n ∧ n ≤ INT64_MAX

instance (n : ℤ) : Decidable (in_int64 n) := by
  unfold in_int64; infer_instance

/-- A signed 64-bit integer: an integer together with the proof that it is in range. -/
structure int64_t where
  val : ℤ
  range : in_int64 val

instance : DecidableEq int64_t := fun a b =>
  if h : a.val = b.val then isTrue (by cases a; cases b; simp_all)
  else isFalse (fun e => h (by rw [e]))

/-- Product of two `int64_t`; a product out of range is an overflow. -/
def int64_t.mul (a b : int64_t) : Except Failure int64_t :=
  if h : in_int64 (a.val * b.val) then .ok ⟨a.val * b.val, h⟩ else .error .overflow

/-- Difference of two `int64_t`; a difference out of range is an overflow. -/
def int64_t.sub (a b : int64_t) : Except Failure int64_t :=
  if h : in_int64 (a.val - b.val) then .ok ⟨a.val - b.val, h⟩ else .error .overflow

/-! ## Linear expressions, generators and polyhedra -/

/-- A space dimension `Variable(id)`. -/
structure Variable where
  id : Nat
  deriving DecidableEq, Repr

/-- The dimension of the smallest space containing the variable. -/
def Variable.space_dimension (v : Variable) : Nat := v.id + 1

/-- A linear expression: the coefficient of `Variable(i)` at position `i`, and
the inhomogeneous term. -/
structure Linear_Expression where
  coeffs : List ℤ
  inhomo : ℤ
  deriving DecidableEq, Repr

/-- Pointwise sum of two coefficient rows, the shorter one padded with zeros. -/
def add_coeffs : List ℤ → List ℤ → List ℤ
  | [], ys => ys
  | x :: xs, [] => x :: xs
  | x :: xs, y :: ys => (x + y) :: add_coeffs xs ys

/-- The row `cs` with position `n` set to `x` (padded with zeros up to `n`). -/
def set_coeff : List ℤ → Nat → ℤ → List ℤ
  | [], 0, x => [x]
  | [], n + 1, x => 0 :: set_coeff [] n x
  | _ :: cs, 0, x => x :: cs
  | c :: cs, n + 1, x => c :: set_coeff cs n x

/-- Scalar product of two coefficient rows (missing positions count as zero). -/
def dot : List ℤ → List ℤ → ℤ
  | x :: xs, y :: ys => x * y + dot xs ys
  | _, _ => 0

/-- The entry of a coefficient row at position `i` (zero beyond its end). -/
def coeff_at : List ℤ → Nat → ℤ
  | [], _ => 0
  | c :: _, 0 => c
  | _ :: cs, i + 1 => coeff_at cs i

/-- The expression `n * Variable(id)`. -/
def Linear_Expression.scaled (n : ℤ) (v : Variable) : Linear_Expression :=
  ⟨set_coeff [] v.id n, 0⟩

/-- Sum of two linear expressions. -/
def Linear_Expression.add (e f : Linear_Expression) : Linear_Expression :=
  ⟨add_coeffs e.coeffs f.coeffs, e.inhomo + f.inhomo⟩

/-- The opposite of a linear expression. -/
def Linear_Expression.neg (e : Linear_Expression) : Linear_Expression :=
  ⟨e.coeffs.map (fun c => -c), -e.inhomo⟩

/-- The dimension of the smallest space containing the expression. -/
def Linear_Expression.space_dimension (e : Linear_Expression) : Nat := e.coeffs.length

/-- The coefficient of a variable in the expression. -/
def Linear_Expression.coefficient (e : Linear_Expression) (v : Variable) : ℤ :=
  coeff_at e.coeffs v.id

/-- A generator of a closed polyhedron: a line, a ray, or a point given by
integer numerators and a divisor. -/
inductive Generator where
  | LINE (c : List ℤ)
  | RAY (c : List ℤ)
  | POINT (c : List ℤ) (d : ℤ)
  deriving DecidableEq, Repr

/-- The generator is a point. -/
def Generator.is_point : Generator → Bool
  | .POINT _ _ => true
  | _ => false

/-- The number of coordinates the generator was built with. -/
def Generator.space_dimension : Generator → Nat
  | .LINE c => c.length
  | .RAY c => c.length
  | .POINT c _ => c.length

/-- The homogeneous coefficients of a line or ray are all zero (points never count). -/
def Generator.is_zero_direction : Generator → Bool
  | .LINE c => c.all (fun z => z == 0)
  | .RAY c => c.all (fun z => z == 0)
  | .POINT _ _ => false

/-- The library function `point(e, d)`: the point `e / d`. A zero divisor is
rejected; the inhomogeneous term of `e` is ignored and the divisor is made
positive. -/
def point (e : Linear_Expression) (d : ℤ) : Except Failure Generator :=
  if d = 0 then .error .invalid_argument
  else if d < 0 then .ok (.POINT (e.coeffs.map (fun c => -c)) (-d))
  else .ok (.POINT e.coeffs d)

/-- A closed convex polyhedron, held as a generator system in a space of
`space_dim` dimensions. A system without points describes the empty polyhedron. -/
structure C_Polyhedron where
  space_dim : Nat
  gens : List Generator
  deriving DecidableEq, Repr

/-- The constructor `C_Polyhedron(n, EMPTY)`. -/
def C_Polyhedron.EMPTY (n : Nat) : C_Polyhedron := ⟨n, []⟩

/-- The polyhedron has no point. -/
def C_Polyhedron.is_empty (P : C_Polyhedron) : Bool :=
  P.gens.all (fun g => !g.is_point)

/-- The method `add_generator(g)`: rejects a generator of a larger space, and
anything but a point when the polyhedron is empty. -/
def C_Polyhedron.add_generator (P : C_Polyhedron) (g : Generator) :
    Except Failure C_Polyhedron :=
  if P.space_dim < g.space_dimension then .error .dimension_incompatible
  else if P.is_empty && !g.is_point then .error .invalid_argument
  else .ok ⟨P.space_dim, P.gens ++ [g]⟩

/-- One generator row under `var := e / den`, for `den > 0`: the coordinate of
`var` becomes the scalar product of `e` with the row (the inhomogeneous term
meets the divisor), every other entry, the divisor included, is multiplied by
`den`. -/
def Generator.affine_image (var : Variable) (e : Linear_Expression) (den : ℤ) :
    Generator → Generator
  | .LINE c => .LINE (set_coeff (c.map (fun z => den * z)) var.id (dot e.coeffs c))
  | .RAY c => .RAY (set_coeff (c.map (fun z => den * z)) var.id (dot e.coeffs c))
  | .POINT c d =>
      .POINT (set_coeff (c.map (fun z => den * z)) var.id (dot e.coeffs c + e.inhomo * d))
        (den * d)

/-- The generator system under `var := e / den` with `den > 0`; when the map is
not invertible the lines and rays that collapsed to the origin are dropped. -/
def affine_image_gens (var : Variable) (e : Linear_Expression) (den : ℤ)
    (gs : List Generator) : List Generator :=
  let gs1 := gs.map (Generator.affine_image var e den)
  if e.space_dimension < var.space_dimension ∨ e.coefficient var = 0 then
    gs1.filter (fun g => !g.is_zero_direction)
  else gs1

/-- The method `affine_image(var, e, den)`: a zero denominator is rejected, as
are an expression or a variable outside the polyhedron's space; a negative
denominator is moved into the expression. -/
def C_Polyhedron.affine_image (P : C_Polyhedron) (var : Variable) (e : Linear_Expression)
    (den : ℤ) : Except Failure C_Polyhedron :=
  if den = 0 then .error .invalid_argument
  else if P.space_dim < e.space_dimension then .error .dimension_incompatible
  else if P.space_dim < var.space_dimension then .error .dimension_incompatible
  else if 0 < den then .ok ⟨P.space_dim, affine_image_gens var e den P.gens⟩
  else .ok ⟨P.space_dim, affine_image_gens var e.neg (-den) P.gens⟩

/-- The direction of a line or ray of a 2-dimensional polyhedron. -/
def direction (c : List ℤ) : ℚ × ℚ := ((coeff_at c 0 : ℤ), (coeff_at c 1 : ℤ))

/-- The rational point `c / d` of a 2-dimensional polyhedron. -/
def location (c : List ℤ) (d : ℤ) : ℚ × ℚ :=
  ((coeff_at c 0 : ℤ) / (d : ℚ), (coeff_at c 1 : ℤ) / (d : ℚ))

/-- Membership of a rational point in a 2-dimensional polyhedron: the least set
that contains the points of the generator system and is closed under moving
along a ray (forwards), along a line (both ways), and convex combination. -/
inductive C_Polyhedron.Mem (P : C_Polyhedron) : ℚ × ℚ → Prop where
  | point (c : List ℤ) (d : ℤ) : Generator.POINT c d ∈ P.gens → Mem P (location c d)
  | ray (c : List ℤ) (v : ℚ × ℚ) (t : ℚ) :
      Generator.RAY c ∈ P.gens → Mem P v → 0 ≤ t → Mem P (v + t • direction c)
  | line (c : List ℤ) (v : ℚ × ℚ) (t : ℚ) :
      Generator.LINE c ∈ P.gens → Mem P v → Mem P (v + t • direction c)
  | convex (v w : ℚ × ℚ) (t : ℚ) :
      Mem P v → Mem P w → 0 ≤ t → t ≤ 1 → Mem P ((1 - t) • v + t • w)

/-- The set of rational points of a 2-dimensional polyhedron. -/
def C_Polyhedron.points (P : C_Polyhedron) : Set (ℚ × ℚ) := {v | P.Mem v}

/-! ## The model -/

/-- Modelled from the spec: the constant `NDIM` is declared outside the model
file; the spec's state space (the box `Omega_0`) is 2-dimensional. -/
abbrev NDIM : Nat := 2

/-- Modelled from the spec: the type `nvec_t` is declared outside the model
file; a vector of `NDIM` numbers of the scalar type `K`. -/
def nvec_t (K : Type) : Type := Fin NDIM → K

/-- The coefficient table `A[NDIM][NDIM]` local to `A`. -/
def A_tab : Fin NDIM → Fin NDIM → int64_t :=
  ![![⟨100, by decide⟩, ⟨10, by decide⟩], ![⟨0, by decide⟩, ⟨100 - 11, by decide⟩]]

/-- The constant `A_den` local to `A`. -/
def A_den : int64_t := ⟨100, by decide⟩

/-- The body of `A` over a coefficient table `a` and denominator `den`: two
successive single-variable affine images of `P`; the argument `x` is not used. -/
def A_with (a : Fin NDIM → Fin NDIM → int64_t) (den : int64_t) {K : Type} (_x : nvec_t K)
    (P : C_Polyhedron) : Except Failure C_Polyhedron := do
  let res := P
  let res ← res.affine_image (Variable.mk 0)
    ((Linear_Expression.scaled (a 0 0).val (Variable.mk 0)).add
      (Linear_Expression.scaled (a 0 1).val (Variable.mk 1))) den.val
  let c0 ← den.mul (a 1 0)
  let m0 ← (a 0 0).mul (a 1 1)
  let m1 ← (a 0 1).mul (a 1 0)
  let c1 ← m0.sub m1
  let d1 ← (a 0 0).mul den
  let res ← res.affine_image (Variable.mk 1)
    ((Linear_Expression.scaled c0.val (Variable.mk 0)).add
      (Linear_Expression.scaled c1.val (Variable.mk 1))) d1.val
  return res

/-- The function `A(x, P)`. -/
def A {K : Type} (x : nvec_t K) (P : C_Polyhedron) : Except Failure C_Polyhedron :=
  A_with A_tab A_den x P

/-- The coefficient table `B[NDIM]` local to `B`. -/
def B_tab : Fin NDIM → int64_t := ![⟨0, by decide⟩, ⟨1, by decide⟩]

/-- The constant `B_den` local to `B`. -/
def B_den : int64_t := ⟨10, by decide⟩

/-- The constant `U_den = INT16_MAX` local to `B`. -/
def U_den : int64_t := ⟨INT16_MAX, by decide⟩

/-- Modelled from the spec: the type `interval_t` is declared outside the model
file; the glossary's closed range `[lower, upper]`, over the scalar type `K`. -/
structure interval_t (K : Type) where
  lower : K
  upper : K

/-- The number `t` lies in the interval. -/
def interval_t.contains {K : Type} [LE K] (I : interval_t K) (t : K) : Prop :=
  I.lower ≤ t ∧ t ≤ I.upper

/-- Modelled from the spec: the type `ninterval_t` is declared outside the
model file; a box of `NDIM` intervals. -/
def ninterval_t (K : Type) : Type := Fin NDIM → interval_t K

/-- The global control bound `U(-6, 6)`. -/
def U {K : Type} [Field K] : interval_t K := ⟨-6, 6⟩

/-- The global initial box `Omega_0`. -/
def Omega_0 {K : Type} [Field K] : ninterval_t K := ![⟨-6, 6⟩, ⟨-6, 6⟩]

/-- The two function-local statics of `B`: `none` until the declaration is
first executed, then the stored value for the rest of the run. -/
structure B_statics where
  Ul : Option int64_t
  Uh : Option int64_t

/-- The statics at program start. -/
def B_statics.fresh : B_statics := ⟨none, none⟩

/-- Executing `static int64_t v = init;`: the initialiser is used only when the
static has not been initialised yet. -/
def static_init (slot : Option int64_t) (init : int64_t) : int64_t :=
  match slot with
  | some v => v
  | none => init

/-- The function `B(x, U)`, over the declared-elsewhere `rat_approx` and the
state of the two statics; returns the result and the statics after the call.
The argument `x` is not used. -/
def B {K : Type} (rat_approx : K → int64_t → int64_t) (s : B_statics) (_x : nvec_t K)
    (U : interval_t K) : Except Failure C_Polyhedron × B_statics :=
  let Ul := static_init s.Ul (rat_approx U.lower U_den)
  let Uh := static_init s.Uh (rat_approx U.upper U_den)
  (do
    let res := C_Polyhedron.EMPTY 2
    let l0 ← (B_tab 0).mul Ul
    let l1 ← (B_tab 1).mul Ul
    let dl ← B_den.mul U_den
    let gl ← point ((Linear_Expression.scaled l0.val (Variable.mk 0)).add
      (Linear_Expression.scaled l1.val (Variable.mk 1))) dl.val
    let res ← res.add_generator gl
    let h0 ← (B_tab 0).mul Uh
    let h1 ← (B_tab 1).mul Uh
    let dh ← B_den.mul U_den
    let gh ← point ((Linear_Expression.scaled h0.val (Variable.mk 0)).add
      (Linear_Expression.scaled h1.val (Variable.mk 1))) dh.val
    let res ← res.add_generator gh
    return res,
   ⟨some Ul, some Uh⟩)

/-- A program run calling `B` on each argument pair in turn, the statics
threaded from one call to the next; returns the results in call order. -/
def B_run {K : Type} (rat_approx : K → int64_t → int64_t) :
    B_statics → List (nvec_t K × interval_t K) → List (Except Failure C_Polyhedron)
  | _, [] => []
  | s, (x, U) :: rest =>
      let r := B rat_approx s x U
      r.1 :: B_run rat_approx r.2 rest

/-- Modelled from the spec: interval negation, computed exactly. -/
def interval_t.neg {K : Type} [Neg K] (a : interval_t K) : interval_t K :=
  ⟨-a.upper, -a.lower⟩

/-- Modelled from the spec: product of a number and an interval, computed exactly. -/
def interval_t.scale {K : Type} [LinearOrderedField K] (c : K) (a : interval_t K) :
    interval_t K :=
  if c < 0 then ⟨c * a.upper, c * a.lower⟩ else ⟨c * a.lower, c * a.upper⟩

/-- Modelled from the spec: product of two intervals, computed exactly: the
range of the four corner products. -/
def interval_t.mul {K : Type} [LinearOrderedField K] (a b : interval_t K) : interval_t K :=
  ⟨min (min (a.lower * b.lower) (a.lower * b.upper))
      (min (a.upper * b.lower) (a.upper * b.upper)),
   max (max (a.lower * b.lower) (a.lower * b.upper))
      (max (a.upper * b.lower) (a.upper * b.upper))⟩

/-- Modelled from the spec: interval exponential, computed exactly from the
pointwise exponential `expf` (an increasing function) at the two bounds. -/
def interval_t.exp {K : Type} (expf : K → K) (a : interval_t K) : interval_t K :=
  ⟨expf a.lower, expf a.upper⟩

/-- The function `Phi(x, x_m)`, over the exponential `expf` of the scalar
type; the literal `-0.033` is read as `-33/1000`. The argument `x_m` is not used. -/
def Phi {K : Type} [LinearOrderedField K] (expf : K → K) (x : ninterval_t K)
    (_x_m : nvec_t K) : ninterval_t K :=
  ![⟨0, 0⟩, ((x 0).scale (-(33 / 1000))).mul ((x 0).neg.exp expf)]

/-- The function `Psi(x, x_m, U)`; no argument is used. -/
def Psi {K : Type} [LinearOrderedField K] (_x : ninterval_t K) (_x_m : nvec_t K)
    (_U : interval_t K) : ninterval_t K :=
  ![⟨0, 0⟩, ⟨0, 0⟩]

/-- The point `p` lies in the box `b`. -/
def ninterval_t.contains {K : Type} [LE K] (b : ninterval_t K) (p : K × K) : Prop :=
  (b 0).contains p.1 ∧ (b 1).contains p.2

/-! ## Reference maps and sets the model is compared with -/

/-- The map `var := e / den` on a point of the plane. -/
def affine_fn (var : Variable) (e : Linear_Expression) (den : ℤ) (p : ℚ × ℚ) : ℚ × ℚ :=
  let y : ℚ :=
    ((coeff_at e.coeffs 0 : ℤ) * p.1 + (coeff_at e.coeffs 1 : ℤ) * p.2 + (e.inhomo : ℤ))
      / (den : ℚ)
  if var.id = 0 then (y, p.2) else if var.id = 1 then (p.1, y) else p

/-- The simultaneous linear map of the matrix `a / d` on the plane. -/
def matrix_map (a : Fin NDIM → Fin NDIM → int64_t) (d : int64_t) (p : ℚ × ℚ) : ℚ × ℚ :=
  ((((a 0 0).val : ℚ) * p.1 + ((a 0 1).val : ℚ) * p.2) / (d.val : ℚ),
   (((a 1 0).val : ℚ) * p.1 + ((a 1 1).val : ℚ) * p.2) / (d.val : ℚ))

/-- The linear map `(p0, p1) -> (p0 + p1/10, 89*p1/100)`. -/
def A_map (p : ℚ × ℚ) : ℚ × ℚ := (p.1 + p.2 / 10, 89 * p.2 / 100)

/-- The point `(0, n / 327670)` contributed to `B` by a stored numerator `n`. -/
def B_point (n : int64_t) : ℚ × ℚ := (0, (n.val : ℚ) / 327670)

/-- A sample polyhedron for the examples: the point `(6, 6)` with the ray `(1, 0)`. -/
def sample_polyhedron : C_Polyhedron := ⟨2, [.POINT [6, 6] 1, .RAY [1, 0]]⟩

/-- A sample polyhedron for the examples: the single point `(7, 6)`. -/
def sample_point : C_Polyhedron := ⟨2, [.POINT [7, 6] 1]⟩

/-- The polyhedron holding the single point `(6, 6)`, a corner of `Omega_0`. -/
def corner_polyhedron : C_Polyhedron := ⟨2, [.POINT [6, 6] 1]⟩

/-- A sample coefficient table for the examples: the singular `[[1, 2], [2, 4]]`. -/
def sample_table : Fin NDIM → Fin NDIM → int64_t :=
  ![![⟨1, by decide⟩, ⟨2, by decide⟩], ![⟨2, by decide⟩, ⟨4, by decide⟩]]

/-- A sample `rat_approx` for the examples: the numerator `floor (v * den)`,
or `0` when that is not an `int64_t`. -/
def rat_approx_floor (v : ℚ) (den : int64_t) : int64_t :=
  if h : in_int64 (v.num * den.val / v.den) then ⟨v.num * den.val / v.den, h⟩
  else ⟨0, by decide⟩

/-! ## Meaning of the library operations -/

theorem coeff_at_set_coeff (c : List ℤ) (n i : Nat) (x : ℤ) :
    coeff_at (set_coeff c n x) i = if i = n then x else coeff_at c i := by
  induction c generalizing n i with
  | nil =>
    induction n generalizing i with
    | zero => cases i <;> simp [set_coeff, coeff_at]
    | succ n ih => cases i <;> simp [set_coeff, coeff_at, ih]
  | cons a c ih =>
    cases n with
    | zero => cases i <;> simp [set_coeff, coeff_at]
    | succ n => cases i <;> simp [set_coeff, coeff_at, ih]

theorem coeff_at_map_mul (c : List ℤ) (k : ℤ) (i : Nat) :
    coeff_at (c.map (fun z => k * z)) i = k * coeff_at c i := by
  induction c generalizing i with
  | nil => simp [coeff_at]
  | cons a c ih => cases i <;> simp [coeff_at, ih]

theorem coeff_at_map_neg (c : List ℤ) (i : Nat) :
    coeff_at (c.map (fun z => -z)) i = - coeff_at c i := by
  induction c generalizing i with
  | nil => simp [coeff_at]
  | cons a c ih => cases i <;> simp [coeff_at, ih]

theorem dot_eq_two (e c : List ℤ) (h : e.length ≤ 2) :
    dot e c = coeff_at e 0 * coeff_at c 0 + coeff_at e 1 * coeff_at c 1 := by
  match e, c, h with
  | [], _, _ => simp [dot, coeff_at]
  | [_], [], _ => simp [dot, coeff_at]
  | [_], [_], _ => simp [dot, coeff_at]
  | [_], _ :: _ :: _, _ => simp [dot, coeff_at]
  | [_, _], [], _ => simp [dot, coeff_at]
  | [_, _], [_], _ => simp [dot, coeff_at]
  | [_, _], _ :: _ :: _, _ => simp [dot, coeff_at]

theorem coeff_at_of_all_zero (c : List ℤ) (h : c.all (fun z => z == 0) = true) (i : Nat) :
    coeff_at c i = 0 := by
  induction c generalizing i with
  | nil => simp [coeff_at]
  | cons a c ih =>
    simp only [List.all_cons, Bool.and_eq_true, beq_iff_eq] at h
    cases i with
    | zero => simp [coeff_at, h.1]
    | succ i => simpa [coeff_at] using ih h.2 i

theorem mem_affine_image_gens (var : Variable) (e : Linear_Expression) (den : ℤ)
    (gs : List Generator) (g' : Generator) :
    g' ∈ affine_image_gens var e den gs ↔
      ∃ g ∈ gs, g.affine_image var e den = g' ∧
        ((e.space_dimension < var.space_dimension ∨ e.coefficient var = 0) →
          g'.is_zero_direction = false) := by
  unfold affine_image_gens
  by_cases hc : e.space_dimension < var.space_dimension ∨ e.coefficient var = 0
  · simp only [hc, if_true, List.mem_filter, List.mem_map, Bool.not_eq_true', forall_true_left]
    constructor
    · rintro ⟨⟨g, hg, rfl⟩, hz⟩
      exact ⟨g, hg, rfl, hz⟩
    · rintro ⟨g, hg, rfl, hz⟩
      exact ⟨⟨g, hg, rfl⟩, hz⟩
  · simp only [hc, if_false, List.mem_map, false_imp_iff, and_true]

theorem affine_fn_add_smul (var : Variable) (e : Linear_Expression) (den : ℤ)
    (he : e.inhomo = 0) (v r : ℚ × ℚ) (t : ℚ) :
    affine_fn var e den (v + t • r) = affine_fn var e den v + t • affine_fn var e den r := by
  unfold affine_fn
  simp only [he, Int.cast_zero, add_zero]
  split_ifs <;> ext <;> simp <;> ring

theorem affine_fn_convex (var : Variable) (e : Linear_Expression) (den : ℤ)
    (he : e.inhomo = 0) (v w : ℚ × ℚ) (t : ℚ) :
    affine_fn var e den ((1 - t) • v + t • w)
      = (1 - t) • affine_fn var e den v + t • affine_fn var e den w := by
  unfold affine_fn
  simp only [he, Int.cast_zero, add_zero]
  split_ifs <;> ext <;> simp <;> ring

theorem location_affine_image (var : Variable) (e : Linear_Expression) (den : ℤ)
    (he : e.inhomo = 0) (hl : e.coeffs.length ≤ 2) (hv : var.id < 2) (hden : den ≠ 0)
    (c : List ℤ) (d : ℤ) :
    location (set_coeff (c.map (fun z => den * z)) var.id (dot e.coeffs c + e.inhomo * d))
        (den * d) = affine_fn var e den (location c d) := by
  have hq : (den : ℚ) ≠ 0 := by exact_mod_cast hden
  have h2 : var.id = 0 ∨ var.id = 1 := by omega
  unfold location affine_fn
  simp only [coeff_at_set_coeff, coeff_at_map_mul, dot_eq_two _ _ hl, he]
  rcases h2 with h | h
  · simp only [h, if_true, one_ne_zero, if_false]
    refine Prod.ext ?_ ?_
    · simp only []
      push_cast
      ring
    · simp only []
      push_cast
      exact mul_div_mul_left _ _ hq
  · simp only [h, if_true, zero_ne_one, one_ne_zero, if_false]
    refine Prod.ext ?_ ?_
    · simp only []
      push_cast
      exact mul_div_mul_left _ _ hq
    · simp only []
      push_cast
      ring

theorem direction_affine_image (var : Variable) (e : Linear_Expression) (den : ℤ)
    (he : e.inhomo = 0) (hl : e.coeffs.length ≤ 2) (hv : var.id < 2) (hden : den ≠ 0)
    (c : List ℤ) :
    direction (set_coeff (c.map (fun z => den * z)) var.id (dot e.coeffs c))
      = (den : ℚ) • affine_fn var e den (direction c) := by
  have hq : (den : ℚ) ≠ 0 := by exact_mod_cast hden
  have h2 : var.id = 0 ∨ var.id = 1 := by omega
  unfold direction affine_fn
  simp only [coeff_at_set_coeff, coeff_at_map_mul, dot_eq_two _ _ hl, he]
  rcases h2 with h | h
  · simp only [h, if_true, one_ne_zero, if_false]
    refine Prod.ext ?_ ?_
    · simp only [Prod.smul_fst, smul_eq_mul]
      push_cast
      rw [mul_div_cancel₀ _ hq]
      ring
    · simp only [Prod.smul_snd, smul_eq_mul]
      push_cast
      ring
  · simp only [h, if_true, zero_ne_one, one_ne_zero, if_false]
    refine Prod.ext ?_ ?_
    · simp only [Prod.smul_fst, smul_eq_mul]
      push_cast
      ring
    · simp only [Prod.smul_snd, smul_eq_mul]
      push_cast
      rw [mul_div_cancel₀ _ hq]
      ring

theorem direction_of_zero (g : Generator) (c : List ℤ)
    (hg : g = Generator.RAY c ∨ g = Generator.LINE c) (hz : g.is_zero_direction = true) :
    direction c = 0 := by
  rcases hg with rfl | rfl <;>
    simp only [Generator.is_zero_direction] at hz <;>
    simp [direction, coeff_at_of_all_zero c hz]

theorem Mem_of_affine_image_gens (n m : Nat) (var : Variable) (e : Linear_Expression) (den : ℤ)
    (gs : List Generator) (he : e.inhomo = 0) (hl : e.coeffs.length ≤ 2) (hv : var.id < 2)
    (hden : 0 < den) (w : ℚ × ℚ)
    (h : C_Polyhedron.Mem ⟨n, affine_image_gens var e den gs⟩ w) :
    ∃ v, C_Polyhedron.Mem ⟨m, gs⟩ v ∧ affine_fn var e den v = w := by
  have hq : (0 : ℚ) < (den : ℚ) := by exact_mod_cast hden
  induction h with
  | point c d hc =>
    obtain ⟨g, hg, hgi, -⟩ := (mem_affine_image_gens var e den gs _).1 hc
    cases g with
    | LINE c0 => simp [Generator.affine_image] at hgi
    | RAY c0 => simp [Generator.affine_image] at hgi
    | POINT c0 d0 =>
      simp only [Generator.affine_image, Generator.POINT.injEq] at hgi
      obtain ⟨rfl, rfl⟩ := hgi
      exact ⟨location c0 d0, C_Polyhedron.Mem.point c0 d0 hg,
        (location_affine_image var e den he hl hv hden.ne' c0 d0).symm⟩
  | ray c v t hc _ ht ih =>
    obtain ⟨v0, hv0, rfl⟩ := ih
    obtain ⟨g, hg, hgi, -⟩ := (mem_affine_image_gens var e den gs _).1 hc
    cases g with
    | LINE c0 => simp [Generator.affine_image] at hgi
    | POINT c0 d0 => simp [Generator.affine_image] at hgi
    | RAY c0 =>
      simp only [Generator.affine_image, Generator.RAY.injEq] at hgi
      subst hgi
      refine ⟨v0 + (t * den) • direction c0,
        C_Polyhedron.Mem.ray c0 v0 (t * den) hg hv0 (mul_nonneg ht hq.le), ?_⟩
      rw [affine_fn_add_smul var e den he, direction_affine_image var e den he hl hv hden.ne',
        smul_smul]
  | line c v t hc _ ih =>
    obtain ⟨v0, hv0, rfl⟩ := ih
    obtain ⟨g, hg, hgi, -⟩ := (mem_affine_image_gens var e den gs _).1 hc
    cases g with
    | RAY c0 => simp [Generator.affine_image] at hgi
    | POINT c0 d0 => simp [Generator.affine_image] at hgi
    | LINE c0 =>
      simp only [Generator.affine_image, Generator.LINE.injEq] at hgi
      subst hgi
      refine ⟨v0 + (t * den) • direction c0,
        C_Polyhedron.Mem.line c0 v0 (t * den) hg hv0, ?_⟩
      rw [affine_fn_add_smul var e den he, direction_affine_image var e den he hl hv hden.ne',
        smul_smul]
  | convex v w t _ _ ht0 ht1 ihv ihw =>
    obtain ⟨v0, hv0, rfl⟩ := ihv
    obtain ⟨w0, hw0, rfl⟩ := ihw
    exact ⟨(1 - t) • v0 + t • w0, C_Polyhedron.Mem.convex v0 w0 t hv0 hw0 ht0 ht1,
      affine_fn_convex var e den he v0 w0 t⟩

theorem Mem_affine_image_gens (n m : Nat) (var : Variable) (e : Linear_Expression) (den : ℤ)
    (gs : List Generator) (he : e.inhomo = 0) (hl : e.coeffs.length ≤ 2) (hv : var.id < 2)
    (hden : 0 < den) (v : ℚ × ℚ) (h : C_Polyhedron.Mem ⟨m, gs⟩ v) :
    C_Polyhedron.Mem ⟨n, affine_image_gens var e den gs⟩ (affine_fn var e den v) := by
  have hq : (0 : ℚ) < (den : ℚ) := by exact_mod_cast hden
  induction h with
  | point c d hc =>
    rw [← location_affine_image var e den he hl hv hden.ne' c d]
    refine C_Polyhedron.Mem.point _ _ ?_
    exact (mem_affine_image_gens var e den gs _).2
      ⟨Generator.POINT c d, hc, rfl, fun _ => rfl⟩
  | ray c v t hc _ ht ih =>
    rw [affine_fn_add_smul var e den he]
    by_cases hz : (Generator.affine_image var e den (Generator.RAY c)).is_zero_direction = true
    · have h0 := direction_of_zero _ _ (Or.inl rfl) hz
      rw [direction_affine_image var e den he hl hv hden.ne'] at h0
      have h1 : affine_fn var e den (direction c) = 0 := by
        rcases smul_eq_zero.1 h0 with h | h
        · exact absurd h hq.ne'
        · exact h
      rw [h1, smul_zero, add_zero]
      exact ih
    · have hmem : Generator.affine_image var e den (Generator.RAY c)
          ∈ affine_image_gens var e den gs :=
        (mem_affine_image_gens var e den gs _).2
          ⟨Generator.RAY c, hc, rfl, fun _ => by simpa using hz⟩
      have := @C_Polyhedron.Mem.ray ⟨n, affine_image_gens var e den gs⟩ _ _ (t / den)
        hmem ih (div_nonneg ht hq.le)
      rw [direction_affine_image var e den he hl hv hden.ne', smul_smul,
        div_mul_cancel₀ _ hq.ne'] at this
      exact this
  | line c v t hc _ ih =>
    rw [affine_fn_add_smul var e den he]
    by_cases hz : (Generator.affine_image var e den (Generator.LINE c)).is_zero_direction = true
    · have h0 := direction_of_zero _ _ (Or.inr rfl) hz
      rw [direction_affine_image var e den he hl hv hden.ne'] at h0
      have h1 : affine_fn var e den (direction c) = 0 := by
        rcases smul_eq_zero.1 h0 with h | h
        · exact absurd h hq.ne'
        · exact h
      rw [h1, smul_zero, add_zero]
      exact ih
    · have hmem : Generator.affine_image var e den (Generator.LINE c)
          ∈ affine_image_gens var e den gs :=
        (mem_affine_image_gens var e den gs _).2
          ⟨Generator.LINE c, hc, rfl, fun _ => by simpa using hz⟩
      have := @C_Polyhedron.Mem.line ⟨n, affine_image_gens var e den gs⟩ _ _ (t / den)
        hmem ih
      rw [direction_affine_image var e den he hl hv hden.ne', smul_smul,
        div_mul_cancel₀ _ hq.ne'] at this
      exact this
  | convex v w t _ _ ht0 ht1 ihv ihw =>
    rw [affine_fn_convex var e den he]
    exact C_Polyhedron.Mem.convex _ _ t ihv ihw ht0 ht1

theorem affine_fn_neg (var : Variable) (e : Linear_Expression) (den : ℤ) (p : ℚ × ℚ) :
    affine_fn var e.neg (-den) p = affine_fn var e den p := by
  unfold affine_fn Linear_Expression.neg
  simp only [coeff_at_map_neg]
  have : ((-coeff_at e.coeffs 0 : ℤ) * p.1 + (-coeff_at e.coeffs 1 : ℤ) * p.2 + ((-e.inhomo : ℤ) : ℚ))
      / ((-den : ℤ) : ℚ)
      = ((coeff_at e.coeffs 0 : ℤ) * p.1 + (coeff_at e.coeffs 1 : ℤ) * p.2 + (e.inhomo : ℤ))
        / (den : ℚ) := by
    push_cast
    rw [← neg_div_neg_eq]
    congr 1
    · ring
    · ring
  simp only [this]

/-- Meaning of `affine_image` on a 2-dimensional polyhedron, for a homogeneous
expression over the two variables: the call succeeds and the points of the
result are the images of the points of `P` under `var := e / den`. -/
theorem points_affine_image (P : C_Polyhedron) (var : Variable) (e : Linear_Expression)
    (den : ℤ) (hP : P.space_dim = 2) (he : e.inhomo = 0) (hl : e.coeffs.length ≤ 2)
    (hv : var.id < 2) (hden : den ≠ 0) :
    ∃ R, P.affine_image var e den = .ok R ∧ R.space_dim = 2 ∧
      R.points = Set.image (affine_fn var e den) P.points := by
  have h1 : ¬ P.space_dim < e.space_dimension := by
    simp only [Linear_Expression.space_dimension, hP]; omega
  have h2 : ¬ P.space_dim < var.space_dimension := by
    simp only [Variable.space_dimension, hP]; omega
  unfold C_Polyhedron.affine_image
  simp only [hden, h1, h2, if_false]
  by_cases hpos : 0 < den
  · simp only [hpos, if_true]
    refine ⟨_, rfl, hP, ?_⟩
    ext w
    constructor
    · intro hw
      obtain ⟨v, hv1, hv2⟩ :=
        Mem_of_affine_image_gens P.space_dim P.space_dim var e den P.gens he hl hv hpos w hw
      exact ⟨v, hv1, hv2⟩
    · rintro ⟨v, hv1, rfl⟩
      exact Mem_affine_image_gens P.space_dim P.space_dim var e den P.gens he hl hv hpos v hv1
  · simp only [hpos, if_false]
    have hneg : 0 < -den := by omega
    have he' : e.neg.inhomo = 0 := by simp [Linear_Expression.neg, he]
    have hl' : e.neg.coeffs.length ≤ 2 := by simpa [Linear_Expression.neg] using hl
    refine ⟨_, rfl, hP, ?_⟩
    ext w
    constructor
    · intro hw
      obtain ⟨v, hv1, hv2⟩ :=
        Mem_of_affine_image_gens P.space_dim P.space_dim var e.neg (-den) P.gens he' hl' hv
          hneg w hw
      exact ⟨v, hv1, by rw [← hv2, affine_fn_neg]⟩
    · rintro ⟨v, hv1, rfl⟩
      rw [← affine_fn_neg]
      exact Mem_affine_image_gens P.space_dim P.space_dim var e.neg (-den) P.gens he' hl' hv
        hneg v hv1

theorem int64_t.mul_ok (a b : int64_t) (h : in_int64 (a.val * b.val)) :
    a.mul b = .ok ⟨a.val * b.val, h⟩ := dif_pos h

theorem int64_t.sub_ok (a b : int64_t) (h : in_int64 (a.val - b.val)) :
    a.sub b = .ok ⟨a.val - b.val, h⟩ := dif_pos h

/-- The expression `m * Variable(0) + n * Variable(1)` has the row `[m, n]` and
no inhomogeneous term. -/
theorem two_term_expression (m n : ℤ) :
    (Linear_Expression.scaled m (Variable.mk 0)).add (Linear_Expression.scaled n (Variable.mk 1))
      = ⟨[m, n], 0⟩ := by
  simp [Linear_Expression.scaled, Linear_Expression.add, set_coeff, add_coeffs]

/-- The two successive updates of `A_with` compose to the simultaneous map. -/
theorem two_step_eq_matrix_map (a : Fin NDIM → Fin NDIM → int64_t) (den : int64_t)
    (h00 : (a 0 0).val ≠ 0) (hd : den.val ≠ 0) (p : ℚ × ℚ) :
    affine_fn (Variable.mk 1)
        ⟨[den.val * (a 1 0).val, (a 0 0).val * (a 1 1).val - (a 0 1).val * (a 1 0).val], 0⟩
        ((a 0 0).val * den.val)
        (affine_fn (Variable.mk 0) ⟨[(a 0 0).val, (a 0 1).val], 0⟩ den.val p)
      = matrix_map a den p := by
  have h1 : ((a 0 0).val : ℚ) ≠ 0 := by exact_mod_cast h00
  have h2 : (den.val : ℚ) ≠ 0 := by exact_mod_cast hd
  unfold affine_fn matrix_map
  simp only [coeff_at, if_true, one_ne_zero, if_false, Int.cast_zero, add_zero]
  refine Prod.ext rfl ?_
  simp only []
  push_cast
  field_simp
  ring

theorem A_with_points (a : Fin NDIM → Fin NDIM → int64_t) (den : int64_t) {K : Type}
    (x : nvec_t K) (P : C_Polyhedron) (hP : P.space_dim = 2)
    (h00 : (a 0 0).val ≠ 0) (hd : den.val ≠ 0)
    (r0 : in_int64 (den.val * (a 1 0).val))
    (r1 : in_int64 ((a 0 0).val * (a 1 1).val))
    (r2 : in_int64 ((a 0 1).val * (a 1 0).val))
    (r3 : in_int64 ((a 0 0).val * (a 1 1).val - (a 0 1).val * (a 1 0).val))
    (r4 : in_int64 ((a 0 0).val * den.val)) :
    ∃ R, A_with a den x P = .ok R ∧ R.space_dim = 2 ∧
      R.points = Set.image (matrix_map a den) P.points := by
  obtain ⟨R1, e1, d1, p1⟩ := points_affine_image P (Variable.mk 0)
    ⟨[(a 0 0).val, (a 0 1).val], 0⟩ den.val hP rfl (le_refl 2) (by decide) hd
  obtain ⟨R2, e2, d2, p2⟩ := points_affine_image R1 (Variable.mk 1)
    ⟨[den.val * (a 1 0).val, (a 0 0).val * (a 1 1).val - (a 0 1).val * (a 1 0).val], 0⟩
    ((a 0 0).val * den.val) d1 rfl (le_refl 2) (by decide) (mul_ne_zero h00 hd)
  refine ⟨R2, ?_, d2, ?_⟩
  · unfold A_with
    simp only [two_term_expression, e1, int64_t.mul_ok _ _ r0, int64_t.mul_ok _ _ r1,
      int64_t.mul_ok _ _ r2, int64_t.mul_ok _ _ r4, int64_t.sub_ok ⟨_, r1⟩ ⟨_, r2⟩ r3, bind, Except.bind,
      pure, Except.pure, e2]
  · rw [p2, p1, Set.image_image]
    exact Set.image_congr (fun p _ => two_step_eq_matrix_map a den h00 hd p)

/-- A polyhedron generated by points only is the convex hull of those points. -/
theorem points_eq_convexHull (P : C_Polyhedron) (h : ∀ g ∈ P.gens, g.is_point = true) :
    P.points = convexHull ℚ {v | ∃ c d, Generator.POINT c d ∈ P.gens ∧ v = location c d} := by
  apply Set.Subset.antisymm
  · intro v hv
    induction hv with
    | point c d hc => exact subset_convexHull ℚ _ ⟨c, d, hc, rfl⟩
    | ray c v t hc _ _ _ => exact absurd (h _ hc) (by simp [Generator.is_point])
    | line c v t hc _ _ => exact absurd (h _ hc) (by simp [Generator.is_point])
    | convex v w t _ _ ht0 ht1 ihv ihw =>
      exact convex_convexHull ℚ _ ihv ihw (sub_nonneg.2 ht1) ht0 (by ring)
  · apply convexHull_min
    · rintro v ⟨c, d, hc, rfl⟩
      exact C_Polyhedron.Mem.point c d hc
    · intro v hv w hw a b ha hb hab
      have ha' : a = 1 - b := by linarith
      subst ha'
      exact C_Polyhedron.Mem.convex v w b hv hw hb (by linarith)

theorem B_tab_zero_mul (u : int64_t) : (B_tab 0).mul u = .ok ⟨0, by decide⟩ := by
  have h : in_int64 ((B_tab 0).val * u.val) := by
    have : (B_tab 0).val * u.val = 0 := by simp [B_tab]
    rw [this]; decide
  rw [int64_t.mul_ok _ _ h]
  congr 2
  simp [B_tab]

theorem B_tab_one_mul (u : int64_t) : (B_tab 1).mul u = .ok u := by
  have e : (B_tab 1).val * u.val = u.val := by simp [B_tab]
  have h : in_int64 ((B_tab 1).val * u.val) := by rw [e]; exact u.range
  rw [int64_t.mul_ok _ _ h]
  congr 1
  cases u
  simp only [int64_t.mk.injEq]
  exact e

theorem B_den_mul_U_den : B_den.mul U_den = .ok ⟨327670, by decide⟩ := by rfl

/-- The polyhedron built by `B` from the numerators `l` and `h`. -/
theorem B_eq {K : Type} (ra : K → int64_t → int64_t) (s : B_statics) (x : nvec_t K)
    (U : interval_t K) :
    B ra s x U =
      (.ok ⟨2, [.POINT [0, (static_init s.Ul (ra U.lower U_den)).val] 327670,
               .POINT [0, (static_init s.Uh (ra U.upper U_den)).val] 327670]⟩,
       ⟨some (static_init s.Ul (ra U.lower U_den)), some (static_init s.Uh (ra U.upper U_den))⟩) := by
  unfold B
  simp only [B_tab_zero_mul, B_tab_one_mul, B_den_mul_U_den, two_term_expression, bind,
    Except.bind, pure, Except.pure, point, C_Polyhedron.add_generator, C_Polyhedron.EMPTY]
  simp [Generator.space_dimension, C_Polyhedron.is_empty, Generator.is_point]

/-- Points of the polyhedron built from two numerators. -/
theorem points_two_points (l h : int64_t) :
    (C_Polyhedron.mk 2 [.POINT [0, l.val] 327670, .POINT [0, h.val] 327670]).points
      = convexHull ℚ {B_point l, B_point h} := by
  rw [points_eq_convexHull _ (by simp [Generator.is_point])]
  congr 1
  ext v
  simp only [Set.mem_setOf_eq, List.mem_cons, Generator.POINT.injEq, List.mem_singleton,
    List.not_mem_nil, or_false, Set.mem_insert_iff, Set.mem_singleton_iff]
  constructor
  · rintro ⟨c, d, (⟨rfl, rfl⟩ | ⟨rfl, rfl⟩), rfl⟩
    · left; simp [location, B_point, coeff_at]
    · right; simp [location, B_point, coeff_at]
  · rintro (rfl | rfl)
    · exact ⟨_, _, Or.inl ⟨rfl, rfl⟩, by simp [location, B_point, coeff_at]⟩
    · exact ⟨_, _, Or.inr ⟨rfl, rfl⟩, by simp [location, B_point, coeff_at]⟩

/-- The hull of two points on the second axis is the segment between them. -/
theorem hull_B_points (l h : int64_t) (hlh : l.val ≤ h.val) :
    convexHull ℚ {B_point l, B_point h}
      = {p : ℚ × ℚ | p.1 = 0 ∧ (l.val : ℚ) / 327670 ≤ p.2 ∧ p.2 ≤ (h.val : ℚ) / 327670} := by
  have hq : (l.val : ℚ) ≤ (h.val : ℚ) := by exact_mod_cast hlh
  rw [convexHull_pair]
  ext p
  simp only [segment, B_point, Set.mem_setOf_eq]
  constructor
  · rintro ⟨a, b, ha, hb, hab, rfl⟩
    simp only [Prod.smul_mk, smul_zero, Prod.mk_add_mk, add_zero, smul_eq_mul, true_and]
    have ha' : a = 1 - b := by linarith
    subst ha'
    have hLH : (l.val : ℚ) / 327670 ≤ (h.val : ℚ) / 327670 :=
      div_le_div_of_nonneg_right hq (by norm_num)
    have h1 := mul_nonneg hb (sub_nonneg.2 hLH)
    have h2 := mul_nonneg ha (sub_nonneg.2 hLH)
    refine ⟨by ring, ?_, ?_⟩
    · linarith
    · linarith
  · rintro ⟨h1, h2, h3⟩
    by_cases heq : (l.val : ℚ) = (h.val : ℚ)
    · refine ⟨1, 0, by norm_num, le_refl _, by norm_num, ?_⟩
      ext
      · simp [h1]
      · simp only [Prod.smul_mk, smul_zero, Prod.mk_add_mk, add_zero, smul_eq_mul, one_mul,
          zero_mul]
        rw [heq] at h2
        linarith
    · have hlt : (l.val : ℚ) < (h.val : ℚ) := lt_of_le_of_ne hq heq
      have hpos : (0 : ℚ) < (h.val : ℚ) - (l.val : ℚ) := by linarith
      refine ⟨((h.val : ℚ) - 327670 * p.2) / ((h.val : ℚ) - (l.val : ℚ)),
        (327670 * p.2 - (l.val : ℚ)) / ((h.val : ℚ) - (l.val : ℚ)), ?_, ?_, ?_, ?_⟩
      · apply div_nonneg _ hpos.le
        linarith
      · apply div_nonneg _ hpos.le
        linarith
      · field_simp
      · ext
        · simp [h1]
        · simp only [Prod.smul_mk, smul_zero, Prod.mk_add_mk, add_zero, smul_eq_mul]
          field_simp
          ring

/-! ## Supporting lemmas for the model functions -/

theorem A_map_eq_matrix_map (p : ℚ × ℚ) : A_map p = matrix_map A_tab A_den p := by
  unfold A_map matrix_map
  refine Prod.ext ?_ ?_
  · simp [A_tab, A_den]
    ring
  · simp [A_tab, A_den]

/-- The call `A(x, P)` on a 2-dimensional polyhedron succeeds and yields the
image of `P` under `A_map`. -/
theorem A_points {K : Type} (x : nvec_t K) (P : C_Polyhedron) (hP : P.space_dim = 2) :
    ∃ R, A x P = .ok R ∧ R.space_dim = 2 ∧ R.points = Set.image A_map P.points := by
  obtain ⟨R, h1, h2, h3⟩ := A_with_points A_tab A_den x P hP (by decide) (by decide)
    (by decide) (by decide) (by decide) (by decide) (by decide)
  refine ⟨R, h1, h2, ?_⟩
  rw [h3]
  exact Set.image_congr (fun p _ => (A_map_eq_matrix_map p).symm)

/-- The result of `B` as a set of points, from any state of the statics. -/
theorem B_points {K : Type} (ra : K → int64_t → int64_t) (s : B_statics) (x : nvec_t K)
    (V : interval_t K) :
    ∃ R, (B ra s x V).1 = .ok R ∧
      R.points = convexHull ℚ {B_point (static_init s.Ul (ra V.lower U_den)),
        B_point (static_init s.Uh (ra V.upper U_den))} := by
  rw [B_eq]
  exact ⟨_, rfl, points_two_points _ _⟩

/-- When the numerators are the exact multiples of the bounds of `V`, the
segment of `B` is the set of points `(0, u/10)` with `u` in `V`. -/
theorem segment_eq_tenth {K : Type} [LinearOrderedField K] (V : interval_t K) (l h : int64_t)
    (hl : (l.val : K) = V.lower * 32767) (hh : (h.val : K) = V.upper * 32767) :
    {p : ℚ × ℚ | p.1 = 0 ∧ (l.val : ℚ) / 327670 ≤ p.2 ∧ p.2 ≤ (h.val : ℚ) / 327670}
      = {p : ℚ × ℚ | p.1 = 0 ∧ ∃ u : ℚ, V.contains (u : K) ∧ p.2 = u / 10} := by
  have hL : V.lower = (((l.val : ℚ) / 32767 : ℚ) : K) := by
    push_cast
    rw [hl]
    field_simp
  have hH : V.upper = (((h.val : ℚ) / 32767 : ℚ) : K) := by
    push_cast
    rw [hh]
    field_simp
  ext p
  simp only [Set.mem_setOf_eq, interval_t.contains]
  constructor
  · rintro ⟨h0, h1, h2⟩
    refine ⟨h0, 10 * p.2, ⟨?_, ?_⟩, by ring⟩
    · rw [hL, Rat.cast_le]
      rw [div_le_iff₀ (by norm_num)] at h1 ⊢
      linarith
    · rw [hH, Rat.cast_le]
      rw [le_div_iff₀ (by norm_num)] at h2 ⊢
      linarith
  · rintro ⟨h0, u, ⟨h1, h2⟩, h3⟩
    rw [hL, Rat.cast_le] at h1
    rw [hH, Rat.cast_le] at h2
    refine ⟨h0, ?_, ?_⟩
    · rw [h3, div_le_iff₀ (by norm_num)] at *
      linarith
    · rw [h3]
      rw [le_div_iff₀ (by norm_num)] at *
      linarith

/-- Once both statics are set, every call of a run returns the polyhedron of
the stored numerators. -/
theorem B_run_initialised {K : Type} (ra : K → int64_t → int64_t) (l h : int64_t)
    (calls : List (nvec_t K × interval_t K)) :
    B_run ra ⟨some l, some h⟩ calls
      = List.replicate calls.length
          (.ok ⟨2, [.POINT [0, l.val] 327670, .POINT [0, h.val] 327670]⟩) := by
  induction calls with
  | nil => rfl
  | cons c rest ih =>
    obtain ⟨x, V⟩ := c
    simp only [B_run, B_eq, static_init, List.length_cons, List.replicate_succ, ih]

/-- A run from fresh statics returns, at every call, the polyhedron of the
first call's numerators. -/
theorem B_run_fresh {K : Type} (ra : K → int64_t → int64_t) (x1 : nvec_t K)
    (U1 : interval_t K) (rest : List (nvec_t K × interval_t K)) :
    B_run ra B_statics.fresh ((x1, U1) :: rest)
      = List.replicate (rest.length + 1)
          (.ok ⟨2, [.POINT [0, (ra U1.lower U_den).val] 327670,
                   .POINT [0, (ra U1.upper U_den).val] 327670]⟩) := by
  simp only [B_run, B_eq, B_statics.fresh, static_init, B_run_initialised,
    List.replicate_succ]

/-- The point `(0, 3/5)` is not in the hull of `(0, -1/10)` and `(0, 1/10)`. -/
theorem three_fifths_not_in_small_hull :
    ((0, 3 / 5) : ℚ × ℚ) ∉ convexHull ℚ {B_point (rat_approx_floor (-1) U_den),
      B_point (rat_approx_floor 1 U_den)} := by
  have hl : (rat_approx_floor (-1) U_den).val = -32767 := by decide
  have hh : (rat_approx_floor 1 U_den).val = 32767 := by decide
  rw [hull_B_points _ _ (by rw [hl, hh]; decide), hl, hh]
  simp only [Set.mem_setOf_eq, not_and, not_le]
  intro _ _
  norm_num

/-- The point `(0, 3/5)` is in the hull of `(0, -3/5)` and `(0, 3/5)`. -/
theorem three_fifths_in_large_hull :
    ((0, 3 / 5) : ℚ × ℚ) ∈ convexHull ℚ {B_point (rat_approx_floor (-6) U_den),
      B_point (rat_approx_floor 6 U_den)} := by
  have hl : (rat_approx_floor (-6) U_den).val = -196602 := by decide
  have hh : (rat_approx_floor 6 U_den).val = 196602 := by decide
  rw [hull_B_points _ _ (by rw [hl, hh]; decide), hl, hh]
  simp only [Set.mem_setOf_eq, true_and]
  constructor <;> norm_num

theorem interval_t.scale_contains {K : Type} [LinearOrderedField K] (c : K) (a : interval_t K)
    (t : K) (h : a.contains t) : (a.scale c).contains (c * t) := by
  obtain ⟨h1, h2⟩ := h
  unfold interval_t.scale
  split_ifs with hc
  · exact ⟨mul_le_mul_of_nonpos_left h2 hc.le, mul_le_mul_of_nonpos_left h1 hc.le⟩
  · have hc' : 0 ≤ c := not_lt.1 hc
    exact ⟨mul_le_mul_of_nonneg_left h1 hc', mul_le_mul_of_nonneg_left h2 hc'⟩

theorem interval_t.neg_contains {K : Type} [LinearOrderedField K] (a : interval_t K) (t : K)
    (h : a.contains t) : a.neg.contains (-t) :=
  ⟨neg_le_neg h.2, neg_le_neg h.1⟩

theorem interval_t.exp_contains {K : Type} [LinearOrderedField K] (expf : K → K)
    (hmono : Monotone expf) (a : interval_t K) (t : K) (h : a.contains t) :
    (a.exp expf).contains (expf t) :=
  ⟨hmono h.1, hmono h.2⟩

theorem interval_t.mul_contains {K : Type} [LinearOrderedField K] (a b : interval_t K)
    (s t : K) (hs : a.contains s) (ht : b.contains t) : (a.mul b).contains (s * t) := by
  obtain ⟨s1, s2⟩ := hs
  obtain ⟨t1, t2⟩ := ht
  unfold interval_t.mul interval_t.contains
  simp only [min_le_iff, le_max_iff]
  constructor
  · rcases le_total 0 t with h0 | h0
    · rcases le_total 0 a.lower with h1 | h1
      · left; left
        calc a.lower * b.lower ≤ a.lower * t := mul_le_mul_of_nonneg_left t1 h1
          _ ≤ s * t := mul_le_mul_of_nonneg_right s1 h0
      · left; right
        calc a.lower * b.upper ≤ a.lower * t := mul_le_mul_of_nonpos_left t2 h1
          _ ≤ s * t := mul_le_mul_of_nonneg_right s1 h0
    · rcases le_total 0 a.upper with h1 | h1
      · right; left
        calc a.upper * b.lower ≤ a.upper * t := mul_le_mul_of_nonneg_left t1 h1
          _ ≤ s * t := mul_le_mul_of_nonpos_right s2 h0
      · right; right
        calc a.upper * b.upper ≤ a.upper * t := mul_le_mul_of_nonpos_left t2 h1
          _ ≤ s * t := mul_le_mul_of_nonpos_right s2 h0
  · rcases le_total 0 t with h0 | h0
    · rcases le_total 0 a.upper with h1 | h1
      · right; right
        calc s * t ≤ a.upper * t := mul_le_mul_of_nonneg_right s2 h0
          _ ≤ a.upper * b.upper := mul_le_mul_of_nonneg_left t2 h1
      · right; left
        calc s * t ≤ a.upper * t := mul_le_mul_of_nonneg_right s2 h0
          _ ≤ a.upper * b.lower := mul_le_mul_of_nonpos_left t1 h1
    · rcases le_total 0 a.lower with h1 | h1
      · left; right
        calc s * t ≤ a.lower * t := mul_le_mul_of_nonpos_right s1 h0
          _ ≤ a.lower * b.upper := mul_le_mul_of_nonneg_left t2 h1
      · left; left
        calc s * t ≤ a.lower * t := mul_le_mul_of_nonpos_right s1 h0
          _ ≤ a.lower * b.lower := mul_le_mul_of_nonpos_left t1 h1

theorem A_map_injective : Function.Injective A_map := by
  intro p q h
  simp only [A_map, Prod.mk.injEq] at h
  obtain ⟨h1, h2⟩ := h
  have e2 : p.2 = q.2 := by linarith
  have e1 : p.1 = q.1 := by rw [e2] at h1; linarith
  exact Prod.ext e1 e2

theorem A_map_surjective : Function.Surjective A_map := by
  intro q
  refine ⟨(q.1 - 10 * q.2 / 89, 100 * q.2 / 89), ?_⟩
  simp only [A_map]
  refine Prod.ext ?_ ?_
  · simp only []
    ring
  · simp only []
    ring

/-- Every point of the hull built by `B` has first coordinate zero. -/
theorem hull_B_points_fst (l h : int64_t) (b : ℚ × ℚ)
    (hb : b ∈ convexHull ℚ {B_point l, B_point h}) : b.1 = 0 := by
  have hsub : convexHull ℚ {B_point l, B_point h} ⊆ {p : ℚ × ℚ | p.1 = 0} := by
    apply convexHull_min
    · intro v hv
      rcases hv with rfl | rfl
      · rfl
      · rfl
    · intro v hv w hw c d _ _ _
      simp only [Set.mem_setOf_eq] at hv hw ⊢
      simp [hv, hw]
  exact hsub hb

/-- The sample point polyhedron holds the single point `(7, 6)`. -/
theorem sample_point_points (v : ℚ × ℚ) (h : sample_point.Mem v) : v = (7, 6) := by
  induction h with
  | point c d hc =>
    simp only [sample_point, List.mem_singleton, Generator.POINT.injEq] at hc
    obtain ⟨rfl, rfl⟩ := hc
    simp [location, coeff_at]
  | ray c v t hc _ _ _ => simp [sample_point] at hc
  | line c v t hc _ _ => simp [sample_point] at hc
  | convex v w t _ _ _ _ ihv ihw =>
    rw [ihv, ihw]
    ext <;> simp <;> ring

/-- The point `(7, 6)` lies on the ray of the sample polyhedron. -/
theorem sample_point_subset : sample_point.points ⊆ sample_polyhedron.points := by
  intro v hv
  rw [sample_point_points v hv]
  have h0 : sample_polyhedron.Mem (location [6, 6] 1) :=
    C_Polyhedron.Mem.point [6, 6] 1 (by simp [sample_polyhedron])
  have h1 := C_Polyhedron.Mem.ray [1, 0] _ 1 (by simp [sample_polyhedron]) h0 zero_le_one
  have e : location [6, 6] 1 + (1 : ℚ) • direction [1, 0] = (7, 6) := by
    simp [location, direction, coeff_at]
    norm_num
  rw [e] at h1
  exact h1

/-! ## The claims -/

/-- C1: for every vector `x` and every 2-dimensional polyhedron `P`, the call
`A(x, P)` returns a polyhedron whose points are exactly the images of the points
of `P` under `(p0, p1) -> (p0 + p1/10, 89*p1/100)`, the simultaneous map of the
matrix `A_tab / A_den = [[100, 10], [0, 89]] / 100`; the result does not depend
on `x`. -/
theorem A_is_linear_image {K : Type} (x x' : nvec_t K) (P : C_Polyhedron)
    (hP : P.space_dim = 2) :
    (∃ R, A x P = .ok R ∧ R.space_dim = 2 ∧ R.points = Set.image A_map P.points) ∧
    (∀ p, A_map p = matrix_map A_tab A_den p) ∧
    ((A_tab 0 0).val = 100 ∧ (A_tab 0 1).val = 10 ∧ (A_tab 1 0).val = 0 ∧
      (A_tab 1 1).val = 89 ∧ A_den.val = 100) ∧
    A x' P = A x P :=
  ⟨A_points x P hP, A_map_eq_matrix_map, by decide, rfl⟩

/-- Witness of C1 on the sample polyhedron. -/
theorem A_is_linear_image_witness :
    sample_polyhedron.space_dim = 2 ∧
    (∃ R, A (fun _ => (0 : ℚ)) sample_polyhedron = .ok R ∧ R.space_dim = 2 ∧
      R.points = Set.image A_map sample_polyhedron.points) :=
  ⟨rfl, (A_is_linear_image (fun _ => (0 : ℚ)) (fun _ => (1 : ℚ)) sample_polyhedron rfl).1⟩

/-- C2: on the first call `B(x, V)`, with `Ul = rat_approx(V.lower(), 32767)` and
`Uh = rat_approx(V.upper(), 32767)`, the call returns the convex hull of
`(0, Ul/327670)` and `(0, Uh/327670)`; for `Ul <= Uh` this is the segment
between them; when `rat_approx` returns the bounds times 32767 exactly (for a
non-empty `V`) it is the set of `(0, u/10)` with `u` in `V`; and for the
declared `U = [-6, 6]` with `Ul = -196602`, `Uh = 196602` it is
`{0} x [-3/5, 3/5]`. -/
theorem B_first_call {K : Type} [LinearOrderedField K] (ra : K → int64_t → int64_t)
    (x : nvec_t K) (V : interval_t K) :
    ∃ R, (B ra B_statics.fresh x V).1 = .ok R ∧
      R.points = convexHull ℚ {B_point (ra V.lower U_den), B_point (ra V.upper U_den)} ∧
      ((ra V.lower U_den).val ≤ (ra V.upper U_den).val →
        R.points = {p : ℚ × ℚ | p.1 = 0 ∧ ((ra V.lower U_den).val : ℚ) / 327670 ≤ p.2 ∧
          p.2 ≤ ((ra V.upper U_den).val : ℚ) / 327670}) ∧
      (V.lower ≤ V.upper → ((ra V.lower U_den).val : K) = V.lower * 32767 →
        ((ra V.upper U_den).val : K) = V.upper * 32767 →
        R.points = {p : ℚ × ℚ | p.1 = 0 ∧ ∃ u : ℚ, V.contains (u : K) ∧ p.2 = u / 10}) ∧
      (V = U → (ra (-6) U_den).val = -196602 → (ra 6 U_den).val = 196602 →
        R.points = {p : ℚ × ℚ | p.1 = 0 ∧ -3 / 5 ≤ p.2 ∧ p.2 ≤ 3 / 5}) := by
  obtain ⟨R, hR, hp⟩ := B_points ra B_statics.fresh x V
  simp only [B_statics.fresh, static_init] at hp
  refine ⟨R, hR, hp, ?_, ?_, ?_⟩
  · intro hle
    rw [hp, hull_B_points _ _ hle]
  · intro hV hl hh
    have hle : (ra V.lower U_den).val ≤ (ra V.upper U_den).val := by
      have : ((ra V.lower U_den).val : K) ≤ ((ra V.upper U_den).val : K) := by
        rw [hl, hh]
        exact mul_le_mul_of_nonneg_right hV (by norm_num)
      exact_mod_cast this
    rw [hp, hull_B_points _ _ hle, segment_eq_tenth V _ _ hl hh]
  · rintro rfl hl hh
    have hl' : (ra (U : interval_t K).lower U_den).val = -196602 := hl
    have hh' : (ra (U : interval_t K).upper U_den).val = 196602 := hh
    rw [hp, hull_B_points _ _ (by rw [hl', hh']; decide), hl', hh']
    ext p
    simp only [Set.mem_setOf_eq]
    constructor
    · rintro ⟨h0, h1, h2⟩
      refine ⟨h0, ?_, ?_⟩
      · norm_num at h1 ⊢
        linarith
      · norm_num at h2 ⊢
        linarith
    · rintro ⟨h0, h1, h2⟩
      refine ⟨h0, ?_, ?_⟩
      · norm_num at h1 ⊢
        linarith
      · norm_num at h2 ⊢
        linarith

/-- Witness of C2: the declared bound `U = [-6, 6]` over the rationals with the
sample `rat_approx`. -/
theorem B_first_call_witness :
    ∃ R, (B rat_approx_floor B_statics.fresh (fun _ => (0 : ℚ)) U).1 = .ok R ∧
      R.points = {p : ℚ × ℚ | p.1 = 0 ∧ ∃ u : ℚ, (U : interval_t ℚ).contains (u : ℚ) ∧
        p.2 = u / 10} ∧
      R.points = {p : ℚ × ℚ | p.1 = 0 ∧ -3 / 5 ≤ p.2 ∧ p.2 ≤ 3 / 5} := by
  obtain ⟨R, h1, _, _, h4, h5⟩ :=
    B_first_call rat_approx_floor (fun _ => (0 : ℚ)) (U : interval_t ℚ)
  refine ⟨R, h1, h4 ?_ ?_ ?_, h5 rfl (by decide) (by decide)⟩
  · simp only [U]; norm_num
  · have : (rat_approx_floor (U : interval_t ℚ).lower U_den).val = -196602 := by decide
    rw [this]; simp only [U]; norm_num
  · have : (rat_approx_floor (U : interval_t ℚ).upper U_den).val = 196602 := by decide
    rw [this]; simp only [U]; norm_num

/-- C3, counterexample: in a run that first calls `B` with `[-6, 6]` and then
with `[-1, 1]`, the second call does not return the hull computed from its own
interval; and the call with `[-1, 1]` returns something else than the same
call made first in a run. -/
theorem B_later_call_ignores_its_interval :
    ∃ R1 R2, B_run rat_approx_floor B_statics.fresh
        [((fun _ => (0 : ℚ)), ⟨-6, 6⟩), ((fun _ => (0 : ℚ)), ⟨-1, 1⟩)] = [.ok R1, .ok R2] ∧
      R2.points ≠ convexHull ℚ {B_point (rat_approx_floor (-1) U_den),
        B_point (rat_approx_floor 1 U_den)} ∧
      (B rat_approx_floor B_statics.fresh (fun _ => (0 : ℚ)) ⟨-1, 1⟩).1 ≠ .ok R2 := by
  refine ⟨_, _, B_run_fresh rat_approx_floor _ _ _, ?_, ?_⟩
  · intro h
    apply three_fifths_not_in_small_hull
    rw [← h, points_two_points]
    exact three_fifths_in_large_hull
  · intro h
    rw [B_eq] at h
    simp only [B_statics.fresh, static_init] at h
    injection h with h
    revert h
    decide

/-- C3, amended: the first call of a run returns the hull computed from its own
interval; whatever the state of the statics, a call that follows another call
returns that call's result and leaves the statics as they are, so all calls of
a run return the same polyhedron; the argument `x` has no influence; and a later
call returns the hull computed from its own interval whenever `rat_approx`
gives its bounds the numerators of the first call's bounds. -/
theorem B_determined_by_first_call {K : Type} (ra : K → int64_t → int64_t) (s : B_statics)
    (x x' : nvec_t K) (V V' : interval_t K) :
    (∃ R, (B ra B_statics.fresh x V).1 = .ok R ∧
      R.points = convexHull ℚ {B_point (ra V.lower U_den), B_point (ra V.upper U_den)}) ∧
    (B ra (B ra s x V).2 x' V').1 = (B ra s x V).1 ∧
    (B ra (B ra s x V).2 x' V').2 = (B ra s x V).2 ∧
    B ra s x' V = B ra s x V ∧
    (ra V'.lower U_den = ra V.lower U_den → ra V'.upper U_den = ra V.upper U_den →
      ∃ R, (B ra (B ra B_statics.fresh x V).2 x' V').1 = .ok R ∧
        R.points = convexHull ℚ {B_point (ra V'.lower U_den), B_point (ra V'.upper U_den)}) := by
  refine ⟨?_, ?_, ?_, ?_, ?_⟩
  · obtain ⟨R, hR, hp⟩ := B_points ra B_statics.fresh x V
    exact ⟨R, hR, hp⟩
  · simp only [B_eq, static_init]
  · simp only [B_eq, static_init]
  · simp only [B_eq]
  · intro hl hh
    obtain ⟨R, hR, hp⟩ := B_points ra (B ra B_statics.fresh x V).2 x' V'
    refine ⟨R, hR, ?_⟩
    rw [hp]
    simp only [B_eq, B_statics.fresh, static_init, hl, hh]

/-- Witness of the amended C3: a second call with the interval of the first. -/
theorem B_determined_by_first_call_witness :
    ∃ R, (B rat_approx_floor (B rat_approx_floor B_statics.fresh (fun _ => (0 : ℚ)) U).2
        (fun _ => (1 : ℚ)) U).1 = .ok R ∧
      R.points = convexHull ℚ {B_point (rat_approx_floor (U : interval_t ℚ).lower U_den),
        B_point (rat_approx_floor (U : interval_t ℚ).upper U_den)} :=
  (B_determined_by_first_call rat_approx_floor B_statics.fresh (fun _ => (0 : ℚ))
    (fun _ => (1 : ℚ)) U U).2.2.2.2 rfl rfl

/-- C4: no call fails. For every `x`, every 2-dimensional `P`, every interval
and every state of the statics, `A` and `B` return a polyhedron; the
denominators handed to `affine_image` are `100` and `10000`, the divisor handed
to `point` is `327670`, and the products and the difference formed from the
coefficient tables are in range, for every `int64_t` value of `Ul` and `Uh`.
`Phi` and `Psi` are total functions without a failure value. -/
theorem no_error_paths {K : Type} (ra : K → int64_t → int64_t) (s : B_statics) (x : nvec_t K)
    (P : C_Polyhedron) (V : interval_t K) (hP : P.space_dim = 2) :
    (∃ R, A x P = .ok R) ∧ (∃ R, (B ra s x V).1 = .ok R) ∧
    (A_den.val = 100 ∧ (A_tab 0 0).mul A_den = .ok ⟨10000, by decide⟩) ∧
    B_den.mul U_den = .ok ⟨327670, by decide⟩ ∧
    ((A_tab 0 0).mul (A_tab 1 1) = .ok ⟨8900, by decide⟩ ∧
      (A_tab 0 1).mul (A_tab 1 0) = .ok ⟨0, by decide⟩ ∧
      int64_t.sub ⟨8900, by decide⟩ ⟨0, by decide⟩ = .ok ⟨8900, by decide⟩ ∧
      A_den.mul (A_tab 1 0) = .ok ⟨0, by decide⟩) ∧
    (∀ u : int64_t, (B_tab 0).mul u = .ok ⟨0, by decide⟩ ∧ (B_tab 1).mul u = .ok u) := by
  refine ⟨?_, ?_, ⟨rfl, rfl⟩, rfl, ⟨rfl, rfl, rfl, rfl⟩, fun u => ⟨B_tab_zero_mul u, B_tab_one_mul u⟩⟩
  · obtain ⟨R, hR, _⟩ := A_points x P hP
    exact ⟨R, hR⟩
  · obtain ⟨R, hR, _⟩ := B_points ra s x V
    exact ⟨R, hR⟩

/-- Witness of C4 on the sample polyhedron and the declared bound. -/
theorem no_error_paths_witness :
    sample_polyhedron.space_dim = 2 ∧
    (∃ R, A (fun _ => (0 : ℚ)) sample_polyhedron = .ok R) ∧
    (∃ R, (B rat_approx_floor B_statics.fresh (fun _ => (0 : ℚ)) U).1 = .ok R) :=
  ⟨rfl, (no_error_paths rat_approx_floor B_statics.fresh (fun _ => (0 : ℚ)) sample_polyhedron
      U rfl).1,
    (no_error_paths rat_approx_floor B_statics.fresh (fun _ => (0 : ℚ)) sample_polyhedron
      U rfl).2.1⟩

/-- C5: under exact real interval arithmetic, with `-0.033` read as `-33/1000`,
for every box `x` and every real `x0` in `x[0]` the value
`-(33/1000) * x0 * exp(-x0)` lies in the second component of `Phi(x, x_m)`, for
every `x_m`; and `Phi` depends neither on `x_m` nor on `x[1]`. -/
theorem Phi_sound (x x' : ninterval_t ℝ) (x_m x_m' : nvec_t ℝ) (x0 : ℝ)
    (h : (x 0).contains x0) :
    ((Phi Real.exp x x_m) 1).contains (-(33 / 1000) * x0 * Real.exp (-x0)) ∧
    (x' 0 = x 0 → Phi Real.exp x' x_m' = Phi Real.exp x x_m) := by
  constructor
  · have h1 := interval_t.scale_contains (-(33 / 1000)) (x 0) x0 h
    have h2 := interval_t.exp_contains Real.exp Real.exp_monotone _ _
      (interval_t.neg_contains (x 0) x0 h)
    exact interval_t.mul_contains _ _ _ _ h1 h2
  · intro hx
    simp only [Phi, hx]

/-- Witness of C5: the point `6` of the first interval of `Omega_0`. -/
theorem Phi_sound_witness :
    ((Phi Real.exp Omega_0 (fun _ => 0)) 1).contains (-(33 / 1000) * 6 * Real.exp (-6)) :=
  (Phi_sound Omega_0 Omega_0 (fun _ => 0) (fun _ => 1) 6
    (by simp only [Omega_0, interval_t.contains]; norm_num)).1

/-- C6: in every run of calls `B(x1, U1), B(x2, U2), ...` from program start,
every call returns one and the same polyhedron, the convex hull of the two
points computed from the first interval `U1`, whatever the later arguments are. -/
theorem B_run_first_interval {K : Type} (ra : K → int64_t → int64_t) (x1 : nvec_t K)
    (U1 : interval_t K) (rest : List (nvec_t K × interval_t K)) :
    ∃ R, B_run ra B_statics.fresh ((x1, U1) :: rest)
        = List.replicate (rest.length + 1) (.ok R) ∧
      (∀ k, k < rest.length + 1 →
        (B_run ra B_statics.fresh ((x1, U1) :: rest))[k]? = some (.ok R)) ∧
      R.points = convexHull ℚ {B_point (ra U1.lower U_den), B_point (ra U1.upper U_den)} := by
  refine ⟨_, B_run_fresh ra x1 U1 rest, ?_, points_two_points _ _⟩
  intro k hk
  rw [B_run_fresh, List.getElem?_replicate]
  simp [hk]

/-- Witness of C6: the second call of a run `[-6, 6]`, `[-1, 1]`. -/
theorem B_run_first_interval_witness :
    ∃ R, (B_run rat_approx_floor B_statics.fresh
        [((fun _ => (0 : ℚ)), ⟨-6, 6⟩), ((fun _ => (0 : ℚ)), ⟨-1, 1⟩)])[1]? = some (.ok R) ∧
      R.points = convexHull ℚ {B_point (rat_approx_floor (-6) U_den),
        B_point (rat_approx_floor 6 U_den)} := by
  obtain ⟨R, _, h2, h3⟩ := B_run_first_interval rat_approx_floor (fun _ => (0 : ℚ)) ⟨-6, 6⟩
    [((fun _ => (0 : ℚ)), ⟨-1, 1⟩)]
  exact ⟨R, h2 1 (by decide), h3⟩

/-- C7: for any coefficient table `a` and denominator `d` with `a00 != 0` and
`d != 0`, the two successive updates `q0 = (a00*p0 + a01*p1)/d` and
`q1 = (d*a10*q0 + (a00*a11 - a01*a10)*p1)/(a00*d)` send every point `p` to its
image under the matrix `a/d`; and when the coefficient products of the body are
in `int64_t` range, the body of `A` over that table returns the image of `P`
under the matrix `a/d`. -/
theorem A_two_step_is_simultaneous (a : Fin NDIM → Fin NDIM → int64_t) (d : int64_t) {K : Type}
    (x : nvec_t K) (P : C_Polyhedron) (h00 : (a 0 0).val ≠ 0) (hd : d.val ≠ 0) :
    (∀ p : ℚ × ℚ,
      affine_fn (Variable.mk 1)
          ((Linear_Expression.scaled (d.val * (a 1 0).val) (Variable.mk 0)).add
            (Linear_Expression.scaled ((a 0 0).val * (a 1 1).val - (a 0 1).val * (a 1 0).val)
              (Variable.mk 1)))
          ((a 0 0).val * d.val)
          (affine_fn (Variable.mk 0)
            ((Linear_Expression.scaled (a 0 0).val (Variable.mk 0)).add
              (Linear_Expression.scaled (a 0 1).val (Variable.mk 1))) d.val p)
        = matrix_map a d p) ∧
    (P.space_dim = 2 → in_int64 (d.val * (a 1 0).val) → in_int64 ((a 0 0).val * (a 1 1).val) →
      in_int64 ((a 0 1).val * (a 1 0).val) →
      in_int64 ((a 0 0).val * (a 1 1).val - (a 0 1).val * (a 1 0).val) →
      in_int64 ((a 0 0).val * d.val) →
      ∃ R, A_with a d x P = .ok R ∧ R.space_dim = 2 ∧
        R.points = Set.image (matrix_map a d) P.points) := by
  constructor
  · intro p
    rw [two_term_expression, two_term_expression]
    exact two_step_eq_matrix_map a d h00 hd p
  · intro hP r0 r1 r2 r3 r4
    exact A_with_points a d x P hP h00 hd r0 r1 r2 r3 r4

/-- Witness of C7: the singular table `[[1, 2], [2, 4]]` over the negative
denominator `-3` on the sample polyhedron. -/
theorem A_two_step_is_simultaneous_witness :
    ∃ R, A_with sample_table ⟨-3, by decide⟩ (fun _ => (0 : ℚ)) sample_polyhedron = .ok R ∧
      R.space_dim = 2 ∧
      R.points = Set.image (matrix_map sample_table ⟨-3, by decide⟩) sample_polyhedron.points :=
  (A_two_step_is_simultaneous sample_table ⟨-3, by decide⟩ (fun _ => (0 : ℚ)) sample_polyhedron
    (by decide) (by decide)).2 rfl (by decide) (by decide) (by decide) (by decide) (by decide)

/-- C8: every point of `B(x, V)` has first coordinate `0`, from any state of the
statics; the first components of `Phi` and `Psi` are `[0, 0]`; hence the first
coordinate of `a + b + phi + psi`, with `a` in `A(x, P)`, `b` in `B(x, V)`, `phi`
in `Phi` and `psi` in `Psi`, is `p0 + p1/10` for some `(p0, p1)` in `P`. -/
theorem first_coordinate_untouched {K : Type} [LinearOrderedField K]
    (ra : K → int64_t → int64_t) (s : B_statics) (x : nvec_t K) (V : interval_t K)
    (expf : K → K) (xb : ninterval_t K) (x_m : nvec_t K) (P : C_Polyhedron)
    (hP : P.space_dim = 2) :
    (∃ RB, (B ra s x V).1 = .ok RB ∧ ∀ b ∈ RB.points, b.1 = 0) ∧
    Phi expf xb x_m 0 = ⟨0, 0⟩ ∧ Psi xb x_m V 0 = ⟨0, 0⟩ ∧
    (∃ RA RB, A x P = .ok RA ∧ (B ra s x V).1 = .ok RB ∧
      ∀ a ∈ RA.points, ∀ b ∈ RB.points, ∀ phi psi : K × K,
        (Phi expf xb x_m).contains phi → (Psi xb x_m V).contains psi →
        ∃ p ∈ P.points, (a.1 : K) + (b.1 : K) + phi.1 + psi.1 = ((p.1 + p.2 / 10 : ℚ) : K)) := by
  obtain ⟨RB, hRB, hpB⟩ := B_points ra s x V
  obtain ⟨RA, hRA, _, hpA⟩ := A_points x P hP
  have hB0 : ∀ b ∈ RB.points, b.1 = 0 := by
    intro b hb
    rw [hpB] at hb
    exact hull_B_points_fst _ _ b hb
  refine ⟨⟨RB, hRB, hB0⟩, rfl, rfl, RA, RB, hRA, hRB, ?_⟩
  intro a ha b hb phi psi hphi hpsi
  rw [hpA] at ha
  obtain ⟨p, hp, rfl⟩ := ha
  refine ⟨p, hp, ?_⟩
  have h1 : phi.1 = 0 := le_antisymm hphi.1.2 hphi.1.1
  have h2 : psi.1 = 0 := le_antisymm hpsi.1.2 hpsi.1.1
  rw [hB0 b hb, h1, h2]
  simp [A_map]

/-- Witness of C8 on the sample polyhedron and the declared bound. -/
theorem first_coordinate_untouched_witness :
    ∃ RB, (B rat_approx_floor B_statics.fresh (fun _ => (0 : ℚ)) U).1 = .ok RB ∧
      ∀ b ∈ RB.points, b.1 = 0 :=
  (first_coordinate_untouched rat_approx_floor B_statics.fresh (fun _ => (0 : ℚ)) U
    (fun t => t) Omega_0 (fun _ => (0 : ℚ)) sample_polyhedron rfl).1

/-- C9: `Psi` is the box `{[0, 0], [0, 0]}` for all arguments, so it is constant
in its three arguments and contains exactly the point `(0, 0)`. -/
theorem Psi_is_zero {K : Type} [LinearOrderedField K] (x x' : ninterval_t K)
    (x_m x_m' : nvec_t K) (V V' : interval_t K) :
    Psi x x_m V 0 = ⟨0, 0⟩ ∧ Psi x x_m V 1 = ⟨0, 0⟩ ∧
    Psi x x_m V = ![⟨0, 0⟩, ⟨0, 0⟩] ∧
    Psi x x_m V = Psi x' x_m' V' ∧
    ∀ p : K × K, (Psi x x_m V).contains p ↔ p = (0, 0) := by
  refine ⟨rfl, rfl, rfl, rfl, ?_⟩
  intro p
  simp only [ninterval_t.contains, interval_t.contains, Psi, Matrix.cons_val_zero,
    Matrix.cons_val_one, Matrix.head_cons]
  constructor
  · rintro ⟨⟨h1, h2⟩, h3, h4⟩
    exact Prod.ext (le_antisymm h2 h1) (le_antisymm h4 h3)
  · rintro rfl
    exact ⟨⟨le_refl _, le_refl _⟩, le_refl _, le_refl _⟩

/-- C10: the map applied by `A` is a bijection of the plane (the determinant
numerator of its table is `8900`), so for all 2-dimensional `P`, `Q` and any
polyhedron `I` with the points of `P` intersected with `Q`, the result of `A` on
`I` is the intersection of the results on `P` and `Q`; `A` is monotone for
inclusion, its result is empty iff `P` is, and equal results come from equal
polyhedra. -/
theorem A_commutes_with_intersection {K : Type} (x : nvec_t K) (P Q I : C_Polyhedron)
    (hP : P.space_dim = 2) (hQ : Q.space_dim = 2) (hI : I.space_dim = 2)
    (hPQ : I.points = P.points ∩ Q.points) :
    Function.Bijective A_map ∧
    (A_tab 0 0).val * (A_tab 1 1).val - (A_tab 0 1).val * (A_tab 1 0).val = 8900 ∧
    ∃ AP AQ AI, A x P = .ok AP ∧ A x Q = .ok AQ ∧ A x I = .ok AI ∧
      AI.points = AP.points ∩ AQ.points ∧
      (P.points ⊆ Q.points → AP.points ⊆ AQ.points) ∧
      (AP.points = ∅ ↔ P.points = ∅) ∧
      (AP.points = AQ.points → P.points = Q.points) := by
  obtain ⟨AP, h1, _, p1⟩ := A_points x P hP
  obtain ⟨AQ, h2, _, p2⟩ := A_points x Q hQ
  obtain ⟨AI, h3, _, p3⟩ := A_points x I hI
  refine ⟨⟨A_map_injective, A_map_surjective⟩, by decide, AP, AQ, AI, h1, h2, h3, ?_, ?_, ?_, ?_⟩
  · rw [p1, p2, p3, hPQ, Set.image_inter A_map_injective]
  · intro h
    rw [p1, p2]
    exact Set.image_subset _ h
  · rw [p1, Set.image_eq_empty]
  · intro h
    rw [p1, p2] at h
    exact A_map_injective.image_injective h

/-- Witness of C10: the sample polyhedron, and the point `(7, 6)` on its ray as
both `Q` and the intersection. -/
theorem A_commutes_with_intersection_witness :
    sample_point.points = sample_polyhedron.points ∩ sample_point.points ∧
    ∃ AP AQ AI, A (fun _ => (0 : ℚ)) sample_polyhedron = .ok AP ∧
      A (fun _ => (0 : ℚ)) sample_point = .ok AQ ∧ A (fun _ => (0 : ℚ)) sample_point = .ok AI ∧
      AI.points = AP.points ∩ AQ.points ∧
      (sample_polyhedron.points ⊆ sample_point.points → AP.points ⊆ AQ.points) ∧
      (AP.points = ∅ ↔ sample_polyhedron.points = ∅) ∧
      (AP.points = AQ.points → sample_polyhedron.points = sample_point.points) :=
  ⟨(Set.inter_eq_right.2 sample_point_subset).symm,
    (A_commutes_with_intersection (fun _ => (0 : ℚ)) sample_polyhedron sample_point sample_point
      rfl rfl rfl (Set.inter_eq_right.2 sample_point_subset).symm).2.2⟩

/-- The corner polyhedron holds exactly the point `(6, 6)`. -/
theorem corner_polyhedron_points : corner_polyhedron.points = {((6, 6) : ℚ × ℚ)} := by
  rw [points_eq_convexHull _ (by simp [corner_polyhedron, Generator.is_point])]
  have e : {v : ℚ × ℚ | ∃ c d, Generator.POINT c d ∈ corner_polyhedron.gens ∧ v = location c d}
      = {((6, 6) : ℚ × ℚ)} := by
    ext v
    simp only [corner_polyhedron, List.mem_singleton, Generator.POINT.injEq, Set.mem_setOf_eq,
      Set.mem_singleton_iff]
    constructor
    · rintro ⟨c, d, ⟨rfl, rfl⟩, rfl⟩
      simp [location, coeff_at]
    · rintro rfl
      exact ⟨_, _, ⟨rfl, rfl⟩, by simp [location, coeff_at]⟩
  rw [e, convexHull_singleton]

/-- The image of the corner `(6, 6)` under the map of `A`. -/
theorem A_map_corner : A_map (6, 6) = (33 / 5, 267 / 50) := by
  simp only [A_map, Prod.mk.injEq]
  constructor <;> norm_num

/-- C11: the box `Omega_0 = [-6, 6] x [-6, 6]` is not mapped into itself by `A`,
and no control repairs this: the corner `p = (6, 6)` lies in `Omega_0`, `A` sends
the polyhedron of `p` to the single point `(33/5, 267/50)`, which is outside
`Omega_0`, and every sum `a + b` of a point `a` of `A(x, p)` and a point `b` of
`B(x, U)`, for `U = [-6, 6]` and any state of the statics, has first coordinate
`33/5 > 6` and so lies outside `Omega_0`. -/
theorem Omega_0_not_invariant {K : Type} [Field K] (ra : K → int64_t → int64_t)
    (s : B_statics) (x : nvec_t K) :
    (Omega_0 : ninterval_t ℚ).contains (6, 6) ∧
    corner_polyhedron.points = {((6, 6) : ℚ × ℚ)} ∧
    ¬ (Omega_0 : ninterval_t ℚ).contains (A_map (6, 6)) ∧
    ∃ RA RB, A x corner_polyhedron = .ok RA ∧ (B ra s x U).1 = .ok RB ∧
      RA.points = {((33 / 5, 267 / 50) : ℚ × ℚ)} ∧
      RB.points = convexHull ℚ {B_point (static_init s.Ul (ra (U : interval_t K).lower U_den)),
        B_point (static_init s.Uh (ra (U : interval_t K).upper U_den))} ∧
      ∀ a ∈ RA.points, ∀ b ∈ RB.points,
        (a + b).1 = 33 / 5 ∧ (6 : ℚ) < (a + b).1 ∧
          ¬ (Omega_0 : ninterval_t ℚ).contains (a + b) := by
  obtain ⟨RA, hRA, _, hpA⟩ := A_points x corner_polyhedron rfl
  obtain ⟨RB, hRB, hpB⟩ := B_points ra s x (U : interval_t K)
  have hA : RA.points = {((33 / 5, 267 / 50) : ℚ × ℚ)} := by
    rw [hpA, corner_polyhedron_points, Set.image_singleton, A_map_corner]
  refine ⟨?_, corner_polyhedron_points, ?_, RA, RB, hRA, hRB, hA, hpB, ?_⟩
  · simp only [ninterval_t.contains, interval_t.contains, Omega_0, Matrix.cons_val_zero,
      Matrix.cons_val_one, Matrix.head_cons]
    norm_num
  · rw [A_map_corner]
    simp only [ninterval_t.contains, interval_t.contains, Omega_0, Matrix.cons_val_zero,
      Matrix.cons_val_one, Matrix.head_cons]
    norm_num
  · intro a ha b hb
    rw [hA] at ha
    rw [hpB] at hb
    have hb0 : b.1 = 0 := hull_B_points_fst _ _ b hb
    have ha0 : a.1 = 33 / 5 := by rw [Set.mem_singleton_iff.1 ha]
    have hsum : (a + b).1 = 33 / 5 := by rw [Prod.fst_add, ha0, hb0, add_zero]
    refine ⟨hsum, by rw [hsum]; norm_num, ?_⟩
    rintro ⟨⟨_, h2⟩, _⟩
    rw [hsum] at h2
    simp only [Omega_0, Matrix.cons_val_zero] at h2
    norm_num at h2

/-- Witness of C11: from fresh statics with the sample `rat_approx`, the image of
the corner plus the upper end `(0, 3/5)` of the control segment is outside
`Omega_0`. -/
theorem Omega_0_not_invariant_witness :
    ¬ (Omega_0 : ninterval_t ℚ).contains
      (((33 / 5, 267 / 50) : ℚ × ℚ) + B_point (rat_approx_floor 6 U_den)) := by
  obtain ⟨_, _, _, RA, RB, _, _, hA, hB, h⟩ :=
    Omega_0_not_invariant rat_approx_floor B_statics.fresh (fun _ => (0 : ℚ))
  refine (h _ ?_ _ ?_).2.2
  · rw [hA]
    exact Set.mem_singleton _
  · rw [hB]
    exact subset_convexHull ℚ _ (Set.mem_insert_of_mem _ (Set.mem_singleton _))

end MassSpringDamper
